import Mathlib

/-!
Verification of the toysh interactive line editor core.

The Rust source stores the in-progress command as a UTF-8 `String`
(`UserInput.input`), a character-index cursor (`UserInput.cursor`) and a
cache of byte offsets, one per character (`UserInput.indices`).  We embed
the UTF-8 string as a `List Char` together with an explicit byte-size
function mirroring `char::len_utf8`; byte-indexed `String` operations
(`String::insert`, `String::remove`) are partial: they return `none` when
the Rust original would panic (index out of range or not on a character
boundary).
-/

namespace Toysh

/-- Number of UTF-8 code units of a character, as Rust `char::len_utf8`. -/
def charBytes (c : Char) : Nat :=
  if c.val ≤ 0x7F then 1
  else if c.val ≤ 0x7FF then 2
  else if c.val ≤ 0xFFFF then 3
  else 4

/-- Byte length of the UTF-8 encoding of a character list (Rust `String::len`). -/
def utf8Len (l : List Char) : Nat :=
  (l.map charBytes).sum

/-- Byte offsets of the characters starting from byte position `base`. -/
def charIndicesFrom (base : Nat) : List Char → List Nat
  | [] => []
  | c :: cs => base :: charIndicesFrom (base + charBytes c) cs

/-- Byte offset of each character, as produced by Rust `str::char_indices`. -/
def charIndices (l : List Char) : List Nat :=
  charIndicesFrom 0 l

/-- Character position corresponding to byte index `b`: `some k` when `b` is
the byte offset of the `k`-th character boundary (including the end of the
string), `none` when `b` is past the end or inside a character. -/
def posOfByte : List Char → Nat → Option Nat
  | _, 0 => some 0
  | [], _ + 1 => none
  | c :: cs, b + 1 =>
    if charBytes c ≤ b + 1 then
      (posOfByte cs (b + 1 - charBytes c)).map (fun n => n + 1)
    else
      none

/-- Rust `String::insert(b, ch)`: insert at byte index `b`; `none` models the
panic when `b` is not a character boundary of the string. -/
def stringInsert (l : List Char) (b : Nat) (ch : Char) : Option (List Char) :=
  (posOfByte l b).map (fun k => l.take k ++ ch :: l.drop k)

/-- Rust `String::remove(b)`: remove the character starting at byte index `b`;
`none` models the panic when `b ≥ len` or `b` is not a character boundary. -/
def stringRemove (l : List Char) (b : Nat) : Option (List Char) :=
  match posOfByte l b with
  | some k => if k < l.length then some (l.take k ++ l.drop (k + 1)) else none
  | none => none

/-- The line buffer (`UserInput` in `src/event.rs`). -/
structure UserInput where
  input : List Char
  cursor : Nat
  indices : List Nat
  deriving Repr, DecidableEq

namespace UserInput

/-- Rust `UserInput::new`. -/
def new : UserInput :=
  { input := [], cursor := 0, indices := [] }

/-- Rust `UserInput::len`: the BYTE length of `input`. -/
def len (s : UserInput) : Nat :=
  utf8Len s.input

/-- Rust `UserInput::is_empty`. -/
def is_empty (s : UserInput) : Bool :=
  s.input.isEmpty

/-- Rust `UserInput::byte_index`; `none` models the panic of `self.indices[self.cursor]`
when `cursor` is out of bounds of the cache. -/
def byte_index (s : UserInput) : Option Nat :=
  if s.cursor = s.indices.length then some (utf8Len s.input)
  else s.indices[s.cursor]?

/-- Rust `UserInput::update_indices`: rebuild the offset cache from `input`. -/
def update_indices (s : UserInput) : UserInput :=
  { s with indices := charIndices s.input }

/-- Rust `UserInput::insert`: `String::insert` at `byte_index`, then `update_indices`,
then `cursor += 1`; `none` models a panic in `byte_index` or `String::insert`. -/
def insert (s : UserInput) (ch : Char) : Option UserInput :=
  match s.byte_index with
  | none => none
  | some b =>
    match stringInsert s.input b ch with
    | none => none
    | some l => some { input := l, cursor := s.cursor + 1, indices := charIndices l }

/-- Rust `UserInput::delete`: when `cursor < len` (BYTE length), `String::remove` at
`byte_index` then `update_indices`; `none` models a panic in `byte_index` or
`String::remove`. -/
def delete (s : UserInput) : Option UserInput :=
  if s.cursor < s.len then
    match s.byte_index with
    | none => none
    | some b =>
      match stringRemove s.input b with
      | none => none
      | some l => some { input := l, cursor := s.cursor, indices := charIndices l }
  else some s

/-- Rust `UserInput::backspace`: when `cursor > 0`, decrement the cursor, then
`String::remove` at the new `byte_index`, then `update_indices`; `none` models
a panic in `byte_index` or `String::remove`. -/
def backspace (s : UserInput) : Option UserInput :=
  if 0 < s.cursor then
    match byte_index { s with cursor := s.cursor - 1 } with
    | none => none
    | some b =>
      match stringRemove s.input b with
      | none => none
      | some l => some { input := l, cursor := s.cursor - 1, indices := charIndices l }
  else some s

/-- Rust `UserInput::clear`. -/
def clear (s : UserInput) : UserInput :=
  { s with cursor := 0, input := [], indices := [] }

/-- Rust `UserInput::move_by`: `saturating_sub` for negative offsets, `min` with the
byte length for non-negative offsets. -/
def move_by (s : UserInput) (offset : Int) : UserInput :=
  if offset < 0 then { s with cursor := s.cursor - offset.natAbs }
  else { s with cursor := min s.len (s.cursor + offset.natAbs) }

end UserInput

/-- One editing operation of the line buffer. -/
inductive Op where
  | insert (c : Char)
  | delete
  | backspace
  | move (o : Int)
  | clear
  deriving Repr, DecidableEq

/-- Apply one operation; `none` models a panic. -/
def applyOp (s : UserInput) : Op → Option UserInput
  | .insert c => s.insert c
  | .delete => s.delete
  | .backspace => s.backspace
  | .move o => some (s.move_by o)
  | .clear => some s.clear

/-- Run a sequence of operations; `none` models a panic at some step. -/
def runOps : UserInput → List Op → Option UserInput
  | s, [] => some s
  | s, op :: ops =>
    match applyOp s op with
    | none => none
    | some t => runOps t ops

/-- Cache coherence: the offset cache is exactly the character→byte-offset map
of the current text. -/
def Wf (s : UserInput) : Prop :=
  s.indices = charIndices s.input

/-- The invariant actually maintained by the code: coherent cache and cursor
bounded by the BYTE length of the text. -/
def Inv (s : UserInput) : Prop :=
  Wf s ∧ s.cursor ≤ utf8Len s.input

theorem charBytes_pos (c : Char) : 0 < charBytes c := by
  unfold charBytes
  split <;> [omega; skip]
  split <;> [omega; skip]
  split <;> omega

@[simp]
theorem utf8Len_nil : utf8Len [] = 0 := rfl

@[simp]
theorem utf8Len_cons (c : Char) (l : List Char) :
    utf8Len (c :: l) = charBytes c + utf8Len l := by
  simp [utf8Len]

theorem utf8Len_append (l₁ l₂ : List Char) :
    utf8Len (l₁ ++ l₂) = utf8Len l₁ + utf8Len l₂ := by
  simp [utf8Len]

theorem length_le_utf8Len (l : List Char) : l.length ≤ utf8Len l := by
  induction l with
  | nil => simp
  | cons c cs ih =>
    have := charBytes_pos c
    simp only [List.length_cons, utf8Len_cons]
    omega

theorem le_utf8Len_take (l : List Char) (k : Nat) (h : k ≤ l.length) :
    k ≤ utf8Len (l.take k) := by
  have h1 := length_le_utf8Len (l.take k)
  rw [List.length_take] at h1
  omega

@[simp]
theorem length_charIndicesFrom (base : Nat) (l : List Char) :
    (charIndicesFrom base l).length = l.length := by
  induction l generalizing base with
  | nil => rfl
  | cons c cs ih => simp [charIndicesFrom, ih]

@[simp]
theorem length_charIndices (l : List Char) :
    (charIndices l).length = l.length :=
  length_charIndicesFrom 0 l

theorem charIndicesFrom_getElem? (l : List Char) (base i : Nat) (h : i < l.length) :
    (charIndicesFrom base l)[i]? = some (base + utf8Len (l.take i)) := by
  induction l generalizing base i with
  | nil => simp at h
  | cons c cs ih =>
    cases i with
    | zero => simp [charIndicesFrom]
    | succ i =>
      have h' : i < cs.length := by simpa using h
      simp only [charIndicesFrom, List.getElem?_cons_succ, ih (base + charBytes c) i h']
      simp [List.take_succ_cons, Nat.add_assoc]

theorem charIndices_getElem? (l : List Char) (i : Nat) (h : i < l.length) :
    (charIndices l)[i]? = some (utf8Len (l.take i)) := by
  have := charIndicesFrom_getElem? l 0 i h
  simpa using this

theorem posOfByte_zero (l : List Char) : posOfByte l 0 = some 0 := by
  cases l <;> rfl

theorem posOfByte_utf8Len_take (l : List Char) (k : Nat) (h : k ≤ l.length) :
    posOfByte l (utf8Len (l.take k)) = some k := by
  induction l generalizing k with
  | nil =>
    have : k = 0 := by simpa using h
    subst this
    rfl
  | cons c cs ih =>
    cases k with
    | zero => exact posOfByte_zero _
    | succ k =>
      have h' : k ≤ cs.length := by simpa using h
      have hb := charBytes_pos c
      have hval : utf8Len ((c :: cs).take (k + 1)) = charBytes c + utf8Len (cs.take k) := by
        simp [List.take_succ_cons]
      obtain ⟨m, hm⟩ : ∃ m, charBytes c + utf8Len (cs.take k) = m + 1 :=
        ⟨charBytes c + utf8Len (cs.take k) - 1, by omega⟩
      rw [hval, hm]
      unfold posOfByte
      rw [if_pos (by omega)]
      have hsub : m + 1 - charBytes c = utf8Len (cs.take k) := by omega
      rw [hsub, ih k h']
      rfl

theorem posOfByte_utf8Len (l : List Char) : posOfByte l (utf8Len l) = some l.length := by
  have := posOfByte_utf8Len_take l l.length (Nat.le_refl _)
  rwa [List.take_length] at this

theorem stringInsert_at (l : List Char) (k : Nat) (c : Char) (h : k ≤ l.length) :
    stringInsert l (utf8Len (l.take k)) c = some (l.take k ++ c :: l.drop k) := by
  unfold stringInsert
  rw [posOfByte_utf8Len_take l k h]
  rfl

theorem stringRemove_at (l : List Char) (k : Nat) (h : k < l.length) :
    stringRemove l (utf8Len (l.take k)) = some (l.take k ++ l.drop (k + 1)) := by
  unfold stringRemove
  rw [posOfByte_utf8Len_take l k (Nat.le_of_lt h)]
  exact if_pos h

theorem stringRemove_at_end (l : List Char) : stringRemove l (utf8Len l) = none := by
  unfold stringRemove
  rw [posOfByte_utf8Len]
  exact if_neg (Nat.lt_irrefl _)

theorem utf8Len_stringInsert (l : List Char) (b : Nat) (c : Char) (l' : List Char)
    (h : stringInsert l b c = some l') : utf8Len l' = utf8Len l + charBytes c := by
  unfold stringInsert at h
  cases hp : posOfByte l b with
  | none => rw [hp] at h; simp at h
  | some k =>
    rw [hp] at h
    simp only [Option.map_some', Option.some.injEq] at h
    subst h
    calc utf8Len (l.take k ++ c :: l.drop k)
        = utf8Len (l.take k) + (charBytes c + utf8Len (l.drop k)) := by
          rw [utf8Len_append, utf8Len_cons]
      _ = charBytes c + utf8Len (l.take k ++ l.drop k) := by rw [utf8Len_append]; omega
      _ = utf8Len l + charBytes c := by rw [List.take_append_drop]; omega

theorem byte_index_wf (s : UserInput) (hw : Wf s) (hc : s.cursor ≤ s.input.length) :
    s.byte_index = some (utf8Len (s.input.take s.cursor)) := by
  unfold UserInput.byte_index
  by_cases h : s.cursor = s.indices.length
  · rw [if_pos h]
    have hlen : s.cursor = s.input.length := by
      rw [h, hw, length_charIndices]
    rw [hlen, List.take_length]
  · rw [if_neg h]
    have hlt : s.cursor < s.input.length := by
      rcases Nat.lt_or_ge s.cursor s.input.length with h1 | h1
      · exact h1
      · exact absurd (by rw [hw, length_charIndices]; omega) h
    rw [hw, charIndices_getElem? _ _ hlt]

theorem byte_index_none (s : UserInput) (h : s.indices.length < s.cursor) :
    s.byte_index = none := by
  unfold UserInput.byte_index
  rw [if_neg (by omega)]
  exact List.getElem?_eq_none (by omega)

theorem insert_eq (s : UserInput) (c : Char) (hw : Wf s) (hc : s.cursor ≤ s.input.length) :
    s.insert c =
      some { input := s.input.take s.cursor ++ c :: s.input.drop s.cursor,
             cursor := s.cursor + 1,
             indices := charIndices (s.input.take s.cursor ++ c :: s.input.drop s.cursor) } := by
  unfold UserInput.insert
  simp only [byte_index_wf s hw hc, stringInsert_at s.input s.cursor c hc]

theorem delete_noop (s : UserInput) (h : s.len ≤ s.cursor) : s.delete = some s := by
  unfold UserInput.delete
  rw [if_neg (by omega)]

theorem delete_eq (s : UserInput) (hw : Wf s) (hlt : s.cursor < s.input.length) :
    s.delete =
      some { input := s.input.take s.cursor ++ s.input.drop (s.cursor + 1),
             cursor := s.cursor,
             indices := charIndices (s.input.take s.cursor ++ s.input.drop (s.cursor + 1)) } := by
  have hlen : s.cursor < s.len := by
    have := length_le_utf8Len s.input
    unfold UserInput.len
    omega
  unfold UserInput.delete
  rw [if_pos hlen]
  simp only [byte_index_wf s hw (Nat.le_of_lt hlt), stringRemove_at s.input s.cursor hlt]

theorem delete_end_multibyte (s : UserInput) (hw : Wf s)
    (hend : s.cursor = s.input.length) (hlt : s.cursor < s.len) : s.delete = none := by
  unfold UserInput.delete
  rw [if_pos hlt]
  simp only [byte_index_wf s hw (Nat.le_of_eq hend), hend, List.take_length,
    stringRemove_at_end]

theorem backspace_noop (s : UserInput) (h : s.cursor = 0) : s.backspace = some s := by
  unfold UserInput.backspace
  rw [if_neg (by omega)]

theorem backspace_eq (s : UserInput) (hw : Wf s) (h0 : 0 < s.cursor)
    (hc : s.cursor - 1 < s.input.length) :
    s.backspace =
      some { input := s.input.take (s.cursor - 1) ++ s.input.drop s.cursor,
             cursor := s.cursor - 1,
             indices := charIndices (s.input.take (s.cursor - 1) ++ s.input.drop s.cursor) } := by
  have hw1 : Wf { s with cursor := s.cursor - 1 } := hw
  have hb := byte_index_wf { s with cursor := s.cursor - 1 } hw1 (Nat.le_of_lt hc)
  unfold UserInput.backspace
  rw [if_pos h0]
  simp only at hb
  simp only [hb, stringRemove_at s.input (s.cursor - 1) hc]
  have : s.cursor - 1 + 1 = s.cursor := by omega
  rw [this]

theorem inv_insert {s t : UserInput} {c : Char} (hs : Inv s) (h : s.insert c = some t) :
    Inv t := by
  by_cases hc : s.cursor ≤ s.input.length
  · rw [insert_eq s c hs.1 hc] at h
    simp only [Option.some.injEq] at h
    subst h
    refine ⟨rfl, ?_⟩
    have h1 : utf8Len (s.input.take s.cursor) + utf8Len (s.input.drop s.cursor) =
        utf8Len s.input := by
      rw [← utf8Len_append, List.take_append_drop]
    have h2 := charBytes_pos c
    have h3 := hs.2
    simp only [utf8Len_append, utf8Len_cons]
    omega
  · have hb : s.byte_index = none := by
      apply byte_index_none
      rw [hs.1, length_charIndices]
      omega
    unfold UserInput.insert at h
    rw [hb] at h
    simp at h

theorem inv_delete {s t : UserInput} (hs : Inv s) (h : s.delete = some t) : Inv t := by
  by_cases hlt : s.cursor < s.len
  · by_cases hc : s.cursor ≤ s.input.length
    · by_cases hlt2 : s.cursor < s.input.length
      · rw [delete_eq s hs.1 hlt2] at h
        simp only [Option.some.injEq] at h
        subst h
        refine ⟨rfl, ?_⟩
        have h1 := le_utf8Len_take s.input s.cursor (Nat.le_of_lt hlt2)
        simp only [utf8Len_append]
        omega
      · have hend : s.cursor = s.input.length := by omega
        rw [delete_end_multibyte s hs.1 hend hlt] at h
        exact absurd h (by simp)
    · have hb : s.byte_index = none := by
        apply byte_index_none
        rw [hs.1, length_charIndices]
        omega
      unfold UserInput.delete at h
      rw [if_pos hlt, hb] at h
      exact absurd h (by simp)
  · rw [delete_noop s (by omega)] at h
    simp only [Option.some.injEq] at h
    subst h
    exact hs

theorem inv_backspace {s t : UserInput} (hs : Inv s) (h : s.backspace = some t) : Inv t := by
  by_cases h0 : 0 < s.cursor
  · by_cases hc : s.cursor - 1 < s.input.length
    · rw [backspace_eq s hs.1 h0 hc] at h
      simp only [Option.some.injEq] at h
      subst h
      refine ⟨rfl, ?_⟩
      have h1 := le_utf8Len_take s.input (s.cursor - 1) (Nat.le_of_lt hc)
      simp only [utf8Len_append]
      omega
    · -- the decremented cursor is at or past the character count: the remove panics
      exfalso
      by_cases hceq : s.cursor - 1 = s.input.length
      · have hw1 : Wf { s with cursor := s.input.length } := hs.1
        have hb := byte_index_wf { s with cursor := s.input.length } hw1 (Nat.le_refl _)
        simp only at hb
        unfold UserInput.backspace at h
        rw [if_pos h0, hceq] at h
        simp [hb, List.take_length, stringRemove_at_end] at h
      · have hb : UserInput.byte_index { s with cursor := s.cursor - 1 } = none := by
          apply byte_index_none
          simp only
          rw [hs.1, length_charIndices]
          omega
        unfold UserInput.backspace at h
        rw [if_pos h0, hb] at h
        exact absurd h (by simp)
  · rw [backspace_noop s (by omega)] at h
    simp only [Option.some.injEq] at h
    subst h
    exact hs

theorem inv_move_by (s : UserInput) (o : Int) (hs : Inv s) : Inv (s.move_by o) := by
  unfold UserInput.move_by
  split
  · exact ⟨hs.1, by simp only; have := hs.2; omega⟩
  · refine ⟨hs.1, ?_⟩
    simp only [UserInput.len]
    omega

theorem inv_clear (s : UserInput) : Inv s.clear :=
  ⟨rfl, Nat.le_refl 0⟩

theorem inv_applyOp {s t : UserInput} {op : Op} (hs : Inv s) (h : applyOp s op = some t) :
    Inv t := by
  cases op with
  | insert c => exact inv_insert hs h
  | delete => exact inv_delete hs h
  | backspace => exact inv_backspace hs h
  | move o =>
    simp only [applyOp, Option.some.injEq] at h
    subst h
    exact inv_move_by s o hs
  | clear =>
    simp only [applyOp, Option.some.injEq] at h
    subst h
    exact inv_clear s

theorem inv_new : Inv UserInput.new :=
  ⟨rfl, Nat.le_refl 0⟩

theorem inv_runOps {ops : List Op} {s t : UserInput} (hs : Inv s)
    (h : runOps s ops = some t) : Inv t := by
  induction ops generalizing s with
  | nil =>
    simp only [runOps, Option.some.injEq] at h
    subst h
    exact hs
  | cons op ops ih =>
    unfold runOps at h
    cases ha : applyOp s op with
    | none => rw [ha] at h; exact absurd h (by simp)
    | some u =>
      rw [ha] at h
      exact ih (inv_applyOp hs ha) h

/-- Key codes relevant to `ShellState::handle_key_event` (crossterm `KeyCode`). -/
inductive KeyCode where
  | char (c : Char)
  | left
  | right
  | backspace
  | enter
  | esc
  | otherKey
  deriving Repr, DecidableEq

/-- Modifier state as matched by the dispatch table: exactly `CONTROL`, exactly
`NONE`, or any other combination (which always falls to the default arm). -/
inductive KeyMods where
  | control
  | noMods
  | otherMods
  deriving Repr, DecidableEq

/-- Result of one dispatch step, as observable on the buffer and the process:
`panicked` is the `unreachable!()` abort, `exited` is `process::exit`,
`editPanicked` is a panic inside a buffer operation, `state` is a buffer
update followed by a redraw, `submitted` is the Enter/`run_command` path. -/
inductive KeyOutcome where
  | panicked
  | exited (code : Int)
  | editPanicked
  | state (s : UserInput) (redraw : Bool)
  | submitted (s : UserInput)
  deriving Repr, DecidableEq

/-- Rust `ShellState::handle_key_event` restricted to its effect on the buffer and
the process: Ctrl-C prints a newline, re-renders the prompt and clears the
buffer; Ctrl-D on an empty buffer executes `unreachable!()`; Esc calls
`process::exit(0)`; Enter runs `run_command`; every other arm edits the
buffer (or ignores the key) and redraws. -/
def handle_key_event (s : UserInput) (code : KeyCode) (mods : KeyMods) : KeyOutcome :=
  match code, mods with
  | .char 'c', .control => .state s.clear true
  | .char 'd', .control =>
    if s.is_empty then .panicked
    else
      match s.delete with
      | some t => .state t true
      | none => .editPanicked
  | .left, .noMods => .state (s.move_by (-1)) true
  | .right, .noMods => .state (s.move_by 1) true
  | .backspace, .noMods =>
    match s.backspace with
    | some t => .state t true
    | none => .editPanicked
  | .char c, .noMods =>
    match s.insert c with
    | some t => .state t true
    | none => .editPanicked
  | .enter, .noMods => .submitted s
  | .esc, .noMods => .exited 0
  | _, _ => .state s true

/-- Rust `process::ExitStatus` as used by `Shell::run_script`; the `process` module
is not under src/, and the spec gives `ExitStatus` as `ExitedWith(code)`. -/
inductive ExitStatus where
  | ExitedWith (code : Int)
  deriving Repr, DecidableEq

/-- Modelled from the spec: `parser::parse` (src/parser.rs is not under src/)
classifies a submitted line as success, classified-empty, or
fatal-parse-failure carrying a diagnostic message. -/
inductive ParseResult where
  | ok
  | errEmpty
  | errFatal (msg : List Char)
  deriving Repr, DecidableEq

/-- Rust `Shell::run_script` (src/shell.rs): map the parse classification of the
line to an exit status; the parse step itself is external, passed as a
function. -/
def run_script (parse : List Char → ParseResult) (script : List Char) : ExitStatus :=
  match parse script with
  | .ok => .ExitedWith 0
  | .errEmpty => .ExitedWith 0
  | .errFatal _ => .ExitedWith (-1)

/-- The layout quantities computed by `ShellState::print_user_input`:
`current_x` is `prompt_len + input.len()`, `wrapBreak` records whether the
explicit `\r\n` after the buffer is printed, `move_up` is how many rows the
cursor moves up from the last printed row (0 means no `MoveUp` is issued). -/
structure RedrawLayout where
  current_x : Nat
  wrapBreak : Bool
  input_height : Nat
  cursor_y : Nat
  cursor_x : Nat
  move_up : Nat
  clear_above : Nat
  clear_below : Nat
  deriving Repr, DecidableEq

/-- The pure layout computation of `ShellState::print_user_input`. -/
def print_user_input (prompt_len columns : Nat) (inp : UserInput) : RedrawLayout :=
  { current_x := prompt_len + inp.len
    wrapBreak := (prompt_len + inp.len) % columns == 0
    input_height := (prompt_len + inp.len) / columns
    cursor_y := (prompt_len + inp.cursor) / columns
    cursor_x := (prompt_len + inp.cursor) % columns
    move_up := (prompt_len + inp.len) / columns - (prompt_len + inp.cursor) / columns
    clear_above := (prompt_len + inp.cursor) / columns
    clear_below := (prompt_len + inp.len) / columns - (prompt_len + inp.cursor) / columns }

/-- A buffer holding the single two-byte character `é` with the cursor at
end-of-text (character index 1), exactly as reached by typing `é`. -/
def accentAtEnd : UserInput :=
  { input := ['é'], cursor := 1, indices := [0] }

/-- A buffer of 8 ASCII characters with the cursor at the end, the
configuration of the worked example in the spec. -/
def eightChars : UserInput :=
  { input := ['a', 'b', 'c', 'd', 'e', 'f', 'g', 'h'], cursor := 8,
    indices := [0, 1, 2, 3, 4, 5, 6, 7] }

/-- A buffer of 7 ASCII characters: with `prompt_len = 3` and `columns = 10`
the total display width is exactly one full row. -/
def sevenChars : UserInput :=
  { input := ['a', 'b', 'c', 'd', 'e', 'f', 'g'], cursor := 7,
    indices := [0, 1, 2, 3, 4, 5, 6] }


theorem bind_some {α β : Type} (a : α) (f : α → Option β) : (some a).bind f = f a := rfl

theorem insert_eq' (inp : List Char) (cur : Nat) (ind : List Nat) (c : Char)
    (hw : ind = charIndices inp) (hc : cur ≤ inp.length) :
    UserInput.insert ⟨inp, cur, ind⟩ c =
      some ⟨inp.take cur ++ c :: inp.drop cur, cur + 1,
            charIndices (inp.take cur ++ c :: inp.drop cur)⟩ :=
  insert_eq ⟨inp, cur, ind⟩ c hw hc

theorem backspace_eq' (inp : List Char) (cur : Nat) (ind : List Nat)
    (hw : ind = charIndices inp) (h0 : 0 < cur) (hc : cur - 1 < inp.length) :
    UserInput.backspace ⟨inp, cur, ind⟩ =
      some ⟨inp.take (cur - 1) ++ inp.drop cur, cur - 1,
            charIndices (inp.take (cur - 1) ++ inp.drop cur)⟩ :=
  backspace_eq ⟨inp, cur, ind⟩ hw h0 hc

theorem take_append_cons {α : Type} (l1 : List α) (c : α) (l2 : List α) :
    (l1 ++ c :: l2).take l1.length = l1 :=
  List.take_left l1 (c :: l2)

theorem drop_append_cons {α : Type} (l1 : List α) (c : α) (l2 : List α) :
    (l1 ++ c :: l2).drop (l1.length + 1) = l2 := by
  have h1 : l1 ++ c :: l2 = (l1 ++ [c]) ++ l2 := by simp
  have h2 : l1.length + 1 = (l1 ++ [c]).length := by simp
  rw [h1, h2]
  exact List.drop_left _ _

/-- C1 counterexample: from the empty buffer, inserting the two-byte character
`é` and then `move_by(1)` completes without panicking and yields cursor = 2
while the text has 1 character, so the cursor does not stay within
`[0, character_count(text)]`. -/
theorem cursor_can_exceed_char_count :
    ¬ (∀ ops s, runOps UserInput.new ops = some s → s.cursor ≤ s.input.length) := by
  intro hall
  have h := hall [Op.insert 'é', Op.move 1]
    { input := ['é'], cursor := 2, indices := [0] } (by decide)
  exact absurd h (by decide)

/-- C1 (amended): for every sequence of insert/delete/backspace/move_by (and
clear) operations applied to the initially empty buffer that completes
without panicking, the cursor is in `[0, byte_length(text)]` after every
step; character count is exceeded when multi-byte characters are present. -/
theorem cursor_within_byte_length (ops : List Op) (s : UserInput)
    (h : runOps UserInput.new ops = some s) : s.cursor ≤ utf8Len s.input :=
  (inv_runOps inv_new h).2

/-- C1 witness: the amended bound at the one-step sequence inserting `a`. -/
theorem cursor_within_byte_length_witness :
    runOps UserInput.new [Op.insert 'a'] =
      some { input := ['a'], cursor := 1, indices := [0] } ∧
    ({ input := ['a'], cursor := 1, indices := [0] } : UserInput).cursor ≤
      utf8Len ({ input := ['a'], cursor := 1, indices := [0] } : UserInput).input :=
  ⟨by decide, cursor_within_byte_length [Op.insert 'a'] _ (by decide)⟩

/-- C2: dispatching Ctrl-D on the empty buffer reaches the `unreachable!()`
arm, i.e. the process panics and terminates; the code violates the claimed
(and spec-intended) no-crash behavior. -/
theorem ctrl_d_empty_buffer_panics :
    handle_key_event UserInput.new (KeyCode.char 'd') KeyMods.control =
      KeyOutcome.panicked := by decide

/-- C3 counterexample: with text `é` (1 character, 2 bytes) and cursor 1,
which is inside `[0, character_count(text)]`, `move_by(1)` sets the cursor to
2, outside `[0, character_count(text)] = [0, 1]`: the upper clamp is not the
character count. -/
theorem move_by_exceeds_char_count :
    accentAtEnd.cursor ≤ accentAtEnd.input.length ∧
    ¬ ((accentAtEnd.move_by 1).cursor ≤ accentAtEnd.input.length) := by decide

/-- C3 (amended): for every buffer state with cursor in
`[0, character_count(text)]` and every offset, `move_by(offset)` sets the
cursor to cursor + offset clamped into `[0, byte_length(text)]`: a negative
offset saturates at 0, a positive offset saturates at the byte length, and
the result is never outside `[0, byte_length(text)]`; the text is unchanged. -/
theorem move_by_clamps_to_byte_length (s : UserInput) (off : Int)
    (hc : s.cursor ≤ s.input.length) :
    ((s.move_by off).cursor : Int) =
      max 0 (min (utf8Len s.input : Int) ((s.cursor : Int) + off)) ∧
    (s.move_by off).cursor ≤ utf8Len s.input ∧
    (s.move_by off).input = s.input := by
  have hlen : s.cursor ≤ utf8Len s.input :=
    le_trans hc (length_le_utf8Len s.input)
  unfold UserInput.move_by
  split
  · refine ⟨?_, ?_, rfl⟩
    · simp only
      omega
    · simp only
      omega
  · refine ⟨?_, ?_, rfl⟩
    · simp only [UserInput.len]
      omega
    · simp only [UserInput.len]
      omega

/-- C3 witness: the amended clamp at text `ab`, cursor 1, offset 5. -/
theorem move_by_clamps_to_byte_length_witness :
    ({ input := ['a', 'b'], cursor := 1, indices := [0, 1] } : UserInput).cursor ≤
      ({ input := ['a', 'b'], cursor := 1, indices := [0, 1] } : UserInput).input.length ∧
    ((((({ input := ['a', 'b'], cursor := 1, indices := [0, 1] } : UserInput).move_by 5).cursor :
        Int) =
      max 0 (min (utf8Len ({ input := ['a', 'b'], cursor := 1, indices := [0, 1] } :
          UserInput).input : Int)
        ((({ input := ['a', 'b'], cursor := 1, indices := [0, 1] } : UserInput).cursor : Int) +
          5))) ∧
     (({ input := ['a', 'b'], cursor := 1, indices := [0, 1] } : UserInput).move_by 5).cursor ≤
       utf8Len ({ input := ['a', 'b'], cursor := 1, indices := [0, 1] } : UserInput).input ∧
     (({ input := ['a', 'b'], cursor := 1, indices := [0, 1] } : UserInput).move_by 5).input =
       ({ input := ['a', 'b'], cursor := 1, indices := [0, 1] } : UserInput).input) :=
  ⟨by decide,
   move_by_clamps_to_byte_length { input := ['a', 'b'], cursor := 1, indices := [0, 1] } 5
     (by decide)⟩

/-- C4: with text `é` and the cursor at end-of-text (character index 1 =
character_count), `delete()` is not a safe no-op: the guard `cursor < len`
compares against the byte length 2, so the code calls `String::remove(2)` on
a 2-byte string, which panics (modelled as `none`). -/
theorem delete_at_end_of_text_panics :
    accentAtEnd.cursor = accentAtEnd.input.length ∧
    UserInput.delete accentAtEnd = none := by decide

/-- C5: after every successful sequence of buffer operations from the empty
buffer — in particular immediately after every mutating one — the offset
cache has exactly one entry per character of the text, and every stored
offset is a character boundary of the UTF-8 encoding of the text. -/
theorem offset_cache_coherent (ops : List Op) (s : UserInput)
    (h : runOps UserInput.new ops = some s) :
    s.indices.length = s.input.length ∧
    ∀ b ∈ s.indices, ∃ k, k ≤ s.input.length ∧ b = utf8Len (s.input.take k) := by
  have hw := (inv_runOps inv_new h).1
  constructor
  · rw [hw, length_charIndices]
  · intro b hb
    rw [hw] at hb
    obtain ⟨i, hi, hval⟩ := List.getElem_of_mem hb
    have hlen : i < s.input.length := by rwa [length_charIndices] at hi
    have hgi := charIndices_getElem? s.input i hlen
    have hval? : (charIndices s.input)[i]? = some b := by
      rw [List.getElem?_eq_getElem hi, hval]
    rw [hgi] at hval?
    exact ⟨i, Nat.le_of_lt hlen, (Option.some_inj.mp hval?).symm⟩

/-- C5 witness: the cache shape after inserting `a` then `é`. -/
theorem offset_cache_coherent_witness :
    runOps UserInput.new [Op.insert 'a', Op.insert 'é'] =
      some { input := ['a', 'é'], cursor := 2, indices := [0, 1] } ∧
    (({ input := ['a', 'é'], cursor := 2, indices := [0, 1] } : UserInput).indices.length =
      ({ input := ['a', 'é'], cursor := 2, indices := [0, 1] } : UserInput).input.length ∧
     ∀ b ∈ ({ input := ['a', 'é'], cursor := 2, indices := [0, 1] } : UserInput).indices,
       ∃ k, k ≤ ({ input := ['a', 'é'], cursor := 2, indices := [0, 1] } :
           UserInput).input.length ∧
         b = utf8Len (({ input := ['a', 'é'], cursor := 2, indices := [0, 1] } :
           UserInput).input.take k)) :=
  ⟨by decide, offset_cache_coherent [Op.insert 'a', Op.insert 'é'] _ (by decide)⟩

/-- C6: for every coherent buffer state with cursor in
`[0, character_count(text)]` and every character `c`, inserting `c` and then
immediately backspacing restores the buffer exactly (text, cursor and cache). -/
theorem insert_then_backspace_restores (s : UserInput) (c : Char) (hw : Wf s)
    (hc : s.cursor ≤ s.input.length) :
    (s.insert c).bind UserInput.backspace = some s := by
  obtain ⟨inp, cur, ind⟩ := s
  have hw' : ind = charIndices inp := hw
  subst hw'
  have hc' : cur ≤ inp.length := hc
  have hA : (inp.take cur).length = cur := by
    rw [List.length_take]
    omega
  have hlen : (inp.take cur ++ c :: inp.drop cur).length = inp.length + 1 := by
    simp only [List.length_append, List.length_cons, List.length_take, List.length_drop]
    omega
  rw [insert_eq' inp cur _ c rfl hc', bind_some,
    backspace_eq' _ (cur + 1) _ rfl (Nat.succ_pos _) (by rw [hlen]; omega),
    Nat.add_sub_cancel]
  have h1 := take_append_cons (inp.take cur) c (inp.drop cur)
  rw [hA] at h1
  have h2 := drop_append_cons (inp.take cur) c (inp.drop cur)
  rw [hA] at h2
  rw [h1, h2, List.take_append_drop]

/-- C6 witness: insert `z` into the buffer `a` with the cursor at the end,
then backspace. -/
theorem insert_then_backspace_restores_witness :
    Wf { input := ['a'], cursor := 1, indices := [0] } ∧
    ({ input := ['a'], cursor := 1, indices := [0] } : UserInput).cursor ≤
      ({ input := ['a'], cursor := 1, indices := [0] } : UserInput).input.length ∧
    (({ input := ['a'], cursor := 1, indices := [0] } : UserInput).insert 'z').bind
        UserInput.backspace =
      some { input := ['a'], cursor := 1, indices := [0] } :=
  ⟨rfl, by decide,
   insert_then_backspace_restores { input := ['a'], cursor := 1, indices := [0] } 'z' rfl
     (by decide)⟩

/-- C7: `run_script` maps a successful or classified-empty parse to
`ExitedWith(0)`, a fatal parse failure to `ExitedWith(-1)`, and in every case
returns one of these two statuses — it never aborts the session. -/
theorem run_script_exit_status (parse : List Char → ParseResult) (script : List Char) :
    ((parse script = ParseResult.ok ∨ parse script = ParseResult.errEmpty) →
      run_script parse script = ExitStatus.ExitedWith 0) ∧
    (∀ msg, parse script = ParseResult.errFatal msg →
      run_script parse script = ExitStatus.ExitedWith (-1)) ∧
    (run_script parse script = ExitStatus.ExitedWith 0 ∨
      run_script parse script = ExitStatus.ExitedWith (-1)) := by
  rcases hp : parse script with _ | _ | msg <;> simp [run_script, hp]

/-- C7 witness: a line the parser classifies as fatally unparsable yields
`ExitedWith(-1)`. -/
theorem run_script_exit_status_witness :
    (fun _ : List Char => ParseResult.errFatal ['x']) [] = ParseResult.errFatal ['x'] ∧
    run_script (fun _ : List Char => ParseResult.errFatal ['x']) [] =
      ExitStatus.ExitedWith (-1) :=
  ⟨rfl,
   (run_script_exit_status (fun _ : List Char => ParseResult.errFatal ['x']) []).2.1 ['x'] rfl⟩

/-- C8 counterexample: with prompt_width 3, columns 10 and text `é` (1
character, 2 bytes), the redraw computes current_column = 5, not
prompt_width + character_count(text) = 4. -/
theorem redraw_current_column_not_char_count :
    (print_user_input 3 10 { input := ['é'], cursor := 0, indices := [0] }).current_x ≠
      3 + ({ input := ['é'], cursor := 0, indices := [0] } : UserInput).input.length := by
  decide

/-- C8 (amended): for every buffer content, cursor position and terminal
width ≥ 1, the redraw computes current_column = prompt_width +
byte_length(text), cursor row = (prompt_width + cursor) / columns, cursor
column-within-row = (prompt_width + cursor) % columns, and repositions the
physical cursor by moving up (last_row - cursor_row) rows then right to that
column; for all-ASCII text the byte length coincides with the character
count, so the worked example (columns 10, prompt 3, 8 characters, cursor 8)
computes current_column 11, last row 1, cursor row 1, cursor column 1 and
moves up 0 rows. -/
theorem redraw_layout_formulas (prompt_len columns : Nat) (inp : UserInput)
    (h : 1 ≤ columns) :
    (print_user_input prompt_len columns inp).current_x = prompt_len + utf8Len inp.input ∧
    (print_user_input prompt_len columns inp).input_height =
      (prompt_len + utf8Len inp.input) / columns ∧
    (print_user_input prompt_len columns inp).cursor_y =
      (prompt_len + inp.cursor) / columns ∧
    (print_user_input prompt_len columns inp).cursor_x =
      (prompt_len + inp.cursor) % columns ∧
    (print_user_input prompt_len columns inp).move_up =
      (print_user_input prompt_len columns inp).input_height -
        (print_user_input prompt_len columns inp).cursor_y :=
  ⟨rfl, rfl, rfl, rfl, rfl⟩

/-- C8 witness: the worked example of the claim — columns 10, prompt width 3,
8 ASCII characters, cursor 8. -/
theorem redraw_layout_formulas_witness :
    1 ≤ 10 ∧
    (print_user_input 3 10 eightChars).current_x = 11 ∧
    (print_user_input 3 10 eightChars).input_height = 1 ∧
    (print_user_input 3 10 eightChars).cursor_y = 1 ∧
    (print_user_input 3 10 eightChars).cursor_x = 1 ∧
    (print_user_input 3 10 eightChars).move_up = 0 := by
  have h := redraw_layout_formulas 3 10 eightChars (by decide)
  exact ⟨by decide, h.1.trans (by decide), h.2.1.trans (by decide), h.2.2.1.trans (by decide),
    h.2.2.2.1.trans (by decide), h.2.2.2.2.trans (by decide)⟩

/-- C9: during redraw the row of the last printed character is
current_column / columns, and (with the prompt occupying at least one
column, as `render_prompt` guarantees) the explicit line break after the
buffer is emitted exactly when current_column is a positive multiple of
columns. -/
theorem redraw_break_iff_column_boundary (prompt_len columns : Nat) (inp : UserInput)
    (h : 0 < prompt_len) :
    (print_user_input prompt_len columns inp).input_height =
      (print_user_input prompt_len columns inp).current_x / columns ∧
    ((print_user_input prompt_len columns inp).wrapBreak = true ↔
      ∃ k, 0 < k ∧ (print_user_input prompt_len columns inp).current_x = k * columns) := by
  refine ⟨rfl, ?_⟩
  have hx : 0 < prompt_len + utf8Len inp.input := by omega
  simp only [print_user_input, UserInput.len, beq_iff_eq]
  constructor
  · intro h0
    obtain ⟨k, hk⟩ := Nat.dvd_of_mod_eq_zero h0
    have hk0 : k ≠ 0 := by
      rintro rfl
      simp only [Nat.mul_zero] at hk
      omega
    exact ⟨k, Nat.pos_of_ne_zero hk0, by rw [hk, Nat.mul_comm]⟩
  · rintro ⟨k, hkpos, hke⟩
    rw [hke]
    exact Nat.mul_mod_left k columns

/-- C9 witness: prompt width 3, columns 10, 7 ASCII characters — the total
width 10 is exactly one row, and the explicit break is emitted. -/
theorem redraw_break_iff_column_boundary_witness :
    0 < 3 ∧
    ((print_user_input 3 10 sevenChars).input_height =
      (print_user_input 3 10 sevenChars).current_x / 10 ∧
     ((print_user_input 3 10 sevenChars).wrapBreak = true ↔
       ∃ k, 0 < k ∧ (print_user_input 3 10 sevenChars).current_x = k * 10)) :=
  ⟨by decide, redraw_break_iff_column_boundary 3 10 sevenChars (by decide)⟩

theorem charBytes_eq_one (c : Char) (h : c.val ≤ 0x7F) : charBytes c = 1 := by
  unfold charBytes
  rw [if_pos h]

theorem two_le_charBytes (c : Char) (h : ¬ c.val ≤ 0x7F) : 2 ≤ charBytes c := by
  unfold charBytes
  rw [if_neg h]
  split
  · omega
  · split <;> omega

theorem utf8Len_of_ascii (l : List Char) (h : ∀ c ∈ l, c.val ≤ 0x7F) :
    utf8Len l = l.length := by
  induction l with
  | nil => rfl
  | cons c cs ih =>
    rw [utf8Len_cons, charBytes_eq_one c (h c (by simp)),
      ih (fun x hx => h x (by simp [hx]))]
    simp [Nat.add_comm]

theorem length_lt_utf8Len_of_multibyte (l : List Char) (h : ∃ c ∈ l, ¬ c.val ≤ 0x7F) :
    l.length < utf8Len l := by
  induction l with
  | nil =>
    obtain ⟨c, hc, _⟩ := h
    simp at hc
  | cons c cs ih =>
    obtain ⟨d, hd, hdv⟩ := h
    rcases List.mem_cons.mp hd with rfl | hmem
    · have h2 := two_le_charBytes d hdv
      have h3 := length_le_utf8Len cs
      simp only [utf8Len_cons, List.length_cons]
      omega
    · have h2 := ih ⟨d, hmem, hdv⟩
      have hb := charBytes_pos c
      simp only [utf8Len_cons, List.length_cons]
      omega

/-- C10: the length used by delete's bounds check, move_by's upper clamp and
the redraw layout is `UserInput::len`, the byte length of the encoded text:
for all-ASCII text it equals the character count, and for text with at least
one multi-byte character it strictly exceeds the character count. -/
theorem buffer_length_is_byte_length :
    (∀ s : UserInput, s.len = utf8Len s.input) ∧
    (∀ s : UserInput, utf8Len s.input ≤ s.cursor → s.delete = some s) ∧
    (∀ (s : UserInput) (k : Nat),
      (s.move_by (Int.ofNat k)).cursor = min (utf8Len s.input) (s.cursor + k)) ∧
    (∀ (prompt_len columns : Nat) (s : UserInput),
      (print_user_input prompt_len columns s).current_x = prompt_len + utf8Len s.input) ∧
    (∀ l : List Char, (∀ c ∈ l, c.val ≤ 0x7F) → utf8Len l = l.length) ∧
    (∀ l : List Char, (∃ c ∈ l, ¬ c.val ≤ 0x7F) → l.length < utf8Len l) := by
  refine ⟨fun s => rfl, fun s h => delete_noop s h, ?_, fun p c s => rfl,
    utf8Len_of_ascii, length_lt_utf8Len_of_multibyte⟩
  intro s k
  unfold UserInput.move_by
  split
  case isTrue h =>
    rw [Int.ofNat_eq_natCast] at h
    exact absurd h (by omega)
  case isFalse h => simp [UserInput.len]

/-- C10 witness: delete's guard passes the byte length (no-op at cursor 2 on
the 2-byte text `é`), `ab` is ASCII with byte length 2 = character count, and
`é` has byte length 2 > character count 1. -/
theorem buffer_length_is_byte_length_witness :
    (utf8Len ({ input := ['é'], cursor := 2, indices := [0] } : UserInput).input ≤
        ({ input := ['é'], cursor := 2, indices := [0] } : UserInput).cursor ∧
      UserInput.delete { input := ['é'], cursor := 2, indices := [0] } =
        some { input := ['é'], cursor := 2, indices := [0] }) ∧
    ((∀ c ∈ (['a', 'b'] : List Char), c.val ≤ 0x7F) ∧
      utf8Len ['a', 'b'] = (['a', 'b'] : List Char).length) ∧
    ((∃ c ∈ (['é'] : List Char), ¬ c.val ≤ 0x7F) ∧
      (['é'] : List Char).length < utf8Len ['é']) :=
  ⟨⟨by decide,
    buffer_length_is_byte_length.2.1 { input := ['é'], cursor := 2, indices := [0] }
      (by decide)⟩,
   ⟨by decide, buffer_length_is_byte_length.2.2.2.2.1 ['a', 'b'] (by decide)⟩,
   ⟨by decide, buffer_length_is_byte_length.2.2.2.2.2 ['é'] (by decide)⟩⟩

end Toysh
